import Mathlib

/-!
# shellquote: quoting strings for a POSIX shell

A shallow embedding of `quote.go` (package `shellquote`) and the properties of
its quoting functions.

* A Go `string` is its byte sequence: a `List Nat` of byte values.
* `for _, c := range s` visits the runes of `s`: `runes s` below, which follows
  the UTF-8 decoding the Go runtime performs for a range loop.
* A `*bytes.Buffer` is the list of bytes written so far; a function that
  writes to a buffer returns the new contents.
* A function returns `none` when the Go code would stop with a run-time panic
  (an index outside `charMask`), and `some r` when it returns `r`.
* A Go `(string, error)` result is a pair whose second component is `none`
  for a `nil` error.
-/

namespace Shellquote

/-! ## The range loop over a string -/

/-- The rune U+FFFD, which the decoder yields for a malformed encoding. -/
def runeError : Nat := 0xFFFD

/-- Bytes below `runeSelf` are runes of their own. -/
def runeSelf : Nat := 0x80

/-- Decoding of the multi-byte encoding at the head of `s`, after the Go
runtime: the rune, and the number of bytes it takes. A malformed, overlong,
surrogate or out-of-range encoding gives `runeError` and takes one byte. -/
def decoderune (s : List Nat) : Nat × Nat :=
  match s with
  | [] => (runeError, 1)
  | s0 :: t =>
    if 0xC0 ≤ s0 ∧ s0 < 0xE0 then
      match t with
      | s1 :: _ =>
        if 0x80 ≤ s1 ∧ s1 ≤ 0xBF then
          let r := ((s0 &&& 0x1F) <<< 6) ||| (s1 &&& 0x3F)
          if 0x7F < r then (r, 2) else (runeError, 1)
        else (runeError, 1)
      | [] => (runeError, 1)
    else if 0xE0 ≤ s0 ∧ s0 < 0xF0 then
      match t with
      | s1 :: s2 :: _ =>
        if (0x80 ≤ s1 ∧ s1 ≤ 0xBF) ∧ (0x80 ≤ s2 ∧ s2 ≤ 0xBF) then
          let r := ((s0 &&& 0x0F) <<< 12) ||| ((s1 &&& 0x3F) <<< 6) ||| (s2 &&& 0x3F)
          if 0x7FF < r ∧ ¬ (0xD800 ≤ r ∧ r ≤ 0xDFFF) then (r, 3) else (runeError, 1)
        else (runeError, 1)
      | _ => (runeError, 1)
    else if 0xF0 ≤ s0 ∧ s0 < 0xF8 then
      match t with
      | s1 :: s2 :: s3 :: _ =>
        if (0x80 ≤ s1 ∧ s1 ≤ 0xBF) ∧ (0x80 ≤ s2 ∧ s2 ≤ 0xBF) ∧ (0x80 ≤ s3 ∧ s3 ≤ 0xBF) then
          let r := ((s0 &&& 0x07) <<< 18) ||| ((s1 &&& 0x3F) <<< 12) |||
            ((s2 &&& 0x3F) <<< 6) ||| (s3 &&& 0x3F)
          if 0xFFFF < r ∧ r ≤ 0x10FFFF then (r, 4) else (runeError, 1)
        else (runeError, 1)
      | _ => (runeError, 1)
    else (runeError, 1)

/-- The runes of the bytes that remain, `skip` of which belong to the rune
decoded last. -/
def rangeFrom : Nat → List Nat → List Nat
  | _, [] => []
  | skip + 1, _ :: bs => rangeFrom skip bs
  | 0, b :: bs =>
    if b < runeSelf then b :: rangeFrom 0 bs
    else (decoderune (b :: bs)).1 :: rangeFrom ((decoderune (b :: bs)).2 - 1) bs

/-- The values `c` takes in `for _, c := range s`, in order. -/
def runes (s : List Nat) : List Nat := rangeFrom 0 s

/-! ## The classification table -/

def maskPlain : Nat := 1
def maskSingle : Nat := 2
def maskDouble : Nat := 4
def maskEscape : Nat := 8

/-- The loop `for c := lo; c <= hi; c++ { r[c] = v }`. -/
def setRange (r : List Nat) (lo hi v : Nat) : List Nat :=
  (List.range' lo (hi + 1 - lo)).foldl (fun r c => r.set c v) r

/-- The loop `for _, c := range str { r[c] = v }` over the characters `cs`. -/
def setEach (r : List Nat) (cs : List Nat) (v : Nat) : List Nat :=
  cs.foldl (fun r c => r.set c v) r

/-- The table `charMask`, built as its initialiser builds it. -/
def charMask : List Nat :=
  let maskAll := maskPlain ||| maskSingle ||| maskDouble
  let r := List.replicate 128 0
  let r := setRange r 32 126 (maskSingle ||| maskDouble)
  -- 'A' .. 'Z'
  let r := setRange r 65 90 maskAll
  -- 'a' .. 'z'
  let r := setRange r 97 122 maskAll
  -- '0' .. '9'
  let r := setRange r 48 57 maskAll
  -- % + , - . / : = @ _
  let r := setEach r [37, 43, 44, 45, 46, 47, 58, 61, 64, 95] maskAll
  -- the single quote
  let r := r.set 39 maskDouble
  -- $ " \ and the backtick
  let r := setEach r [36, 34, 92, 96] (maskSingle ||| maskDouble ||| maskEscape)
  r

/-! ## Errors -/

/-- The two errors of `stringMask`, each with the rune it reports. -/
inductive Error where
  | nonASCII (c : Nat)
  | control (c : Nat)
  deriving DecidableEq, Repr

/-- The format verb `%04X`: upper-case hexadecimal, at least four digits. -/
def formatX04 (c : Nat) : List Char :=
  let ds := (Nat.toDigits 16 c).map Char.toUpper
  List.replicate (4 - ds.length) '0' ++ ds

/-- The text of an error. -/
def Error.message : Error → List Char
  | Error.nonASCII c => "string contains non-ASCII character U+".toList ++ formatX04 c
  | Error.control c => "string contains control character U+".toList ++ formatX04 c

/-! ## The quoting functions -/

/-- The loop of `stringMask` over the runes that remain, `m` the mask so far. -/
def stringMaskLoop (m : Nat) : List Nat → Option (Nat × Option Error)
  | [] => some (m, none)
  | c :: cs =>
    if c ≥ 128 then some (0, some (Error.nonASCII c))
    else
      match charMask[c]? with
      | none => none
      | some cm =>
        let m := m &&& cm
        if cm = 0 then some (0, some (Error.control c))
        else stringMaskLoop m cs

def stringMask (s : List Nat) : Option (Nat × Option Error) :=
  stringMaskLoop (maskPlain ||| maskSingle ||| maskDouble) (runes s)

/-- The loop that `writeDoubleQuoted` and `BareQuotedString` share: each rune
is written as a byte, after a backslash when its table entry has
`maskEscape`. -/
def writeEscaped (w : List Nat) : List Nat → Option (List Nat)
  | [] => some w
  | c :: cs =>
    match charMask[c]? with
    | none => none
    | some cm =>
      writeEscaped ((if cm &&& maskEscape ≠ 0 then w ++ [92] else w) ++ [c % 256]) cs

def writeDoubleQuoted (w s : List Nat) : Option (List Nat) :=
  match writeEscaped (w ++ [34]) (runes s) with
  | none => none
  | some w => some (w ++ [34])

/-- The function `String`: quotes a string so it can be passed to the shell. -/
def String (s : List Nat) : Option (List Nat × Option Error) :=
  if s = [] then some ([39, 39], none)
  else
    match stringMask s with
    | none => none
    | some (_, some err) => some ([], some err)
    | some (m, none) =>
      if m &&& maskPlain ≠ 0 then some (s, none)
      else if m &&& maskSingle ≠ 0 then some ([39] ++ s ++ [39], none)
      else
        match writeDoubleQuoted [] s with
        | none => none
        | some buf => some (buf, none)

/-- The function `BareQuotedString`: quotes a string for use between double
quotes, which are not included. -/
def BareQuotedString (s : List Nat) : Option (List Nat × Option Error) :=
  match stringMask s with
  | none => none
  | some (_, some err) => some ([], some err)
  | some (m, none) =>
    if m &&& maskPlain ≠ 0 then some (s, none)
    else
      match writeEscaped [] (runes s) with
      | none => none
      | some buf => some (buf, none)

/-- The function `WriteString` on a buffer holding `w`: the buffer afterwards
and the error. -/
def WriteString (w s : List Nat) : Option (List Nat × Option Error) :=
  if s = [] then some (w ++ [39, 39], none)
  else
    match stringMask s with
    | none => none
    | some (_, some err) => some (w, some err)
    | some (m, none) =>
      if m &&& maskPlain ≠ 0 then some (w ++ s, none)
      else if m &&& maskSingle ≠ 0 then some (w ++ [39] ++ s ++ [39], none)
      else
        match writeDoubleQuoted w s with
        | none => none
        | some w => some (w, none)

/-- The loop of `WriteCommand` from index `i` on. -/
def WriteCommandLoop (w : List Nat) (i : Nat) :
    List (List Nat) → Option (List Nat × Option Error)
  | [] => some (w, none)
  | arg :: rest =>
    match WriteString (if i > 0 then w ++ [32] else w) arg with
    | none => none
    | some (w, some err) => some (w, some err)
    | some (w, none) => WriteCommandLoop w (i + 1) rest

def WriteCommand (w : List Nat) (cmd : List (List Nat)) : Option (List Nat × Option Error) :=
  WriteCommandLoop w 0 cmd

/-- The function `Command`: quotes a command so it can be passed to the shell. -/
def Command (cmd : List (List Nat)) : Option (List Nat × Option Error) :=
  match WriteCommand [] cmd with
  | none => none
  | some (_, some err) => some ([], some err)
  | some (buf, none) => some (buf, none)

/-! ## Local paths -/

/-- The search of `strings.IndexByte` in the bytes that remain, the first of
them at index `i`: the index of the first byte equal to `c`, or -1. -/
def indexByteFrom (c : Nat) (i : Nat) : List Nat → Int
  | [] => -1
  | b :: bs => if b = c then (i : Int) else indexByteFrom c (i + 1) bs

/-- The function `strings.IndexByte`: the index of the first `c` in `s`, or -1
when `s` has none. -/
def IndexByte (s : List Nat) (c : Nat) : Int := indexByteFrom c 0 s

/-- The function `LocalPath`. The slice `leading[:i]` is `List.take`: the index
`i` is that of a byte of `s`, so the slice is within bounds. -/
def LocalPath (s : List Nat) : List Nat :=
  match s with
  | [] => [46]
  | s0 :: _ =>
    if s0 = 45 ∨ s0 = 126 then [46, 47] ++ s
    else
      let i := IndexByte s 47
      let leading := if i ≠ -1 then s.take i.toNat else s
      let j := IndexByte leading 58
      if j ≠ -1 then [46, 47] ++ s else s

/-! ## Reading shell text

The reference against which the quoted text is read: the quoting rules of the
Shell Command Language (escape character, single quotes, double quotes) and
its splitting of a command line into words at unquoted blanks. The reader
accepts only text in which no expansion, operator or comment can occur, and
gives `none` for all other text. -/

/-- Where the reader stands: in unquoted text, after an unquoted backslash,
between single quotes, between double quotes, after a backslash between double
quotes. -/
inductive ShellMode where
  | bare
  | bareEsc
  | single
  | double
  | doubleEsc
  deriving DecidableEq, Repr

/-- Unquoted characters that do not stand for themselves in a command
argument: newline, the operator characters | & ; < > ( ), the expansion
characters $ and backtick, the pattern characters * ? [, and # and ~. -/
def shellSpecial (c : Nat) : Bool :=
  decide (c ∈ [10, 124, 38, 59, 60, 62, 40, 41, 36, 96, 42, 63, 91, 35, 126])

/-- The word in progress with one more character. -/
def pushChar (cur : Option (List Nat)) (c : Nat) : Option (List Nat) :=
  some (cur.getD [] ++ [c])

/-- The words of a command line after quote removal. `cur` is the word in
progress, `none` between words. -/
def shellWords : ShellMode → Option (List Nat) → List Nat → Option (List (List Nat))
  | ShellMode.bare, cur, [] => some cur.toList
  | ShellMode.bare, cur, c :: rest =>
    if c = 39 then shellWords ShellMode.single (some (cur.getD [])) rest
    else if c = 34 then shellWords ShellMode.double (some (cur.getD [])) rest
    else if c = 92 then shellWords ShellMode.bareEsc cur rest
    else if c = 32 ∨ c = 9 then
      (shellWords ShellMode.bare none rest).map (fun ws => cur.toList ++ ws)
    else if shellSpecial c then none
    else shellWords ShellMode.bare (pushChar cur c) rest
  | ShellMode.bareEsc, _, [] => none
  | ShellMode.bareEsc, cur, c :: rest =>
    if c = 10 then shellWords ShellMode.bare cur rest
    else shellWords ShellMode.bare (pushChar cur c) rest
  | ShellMode.single, _, [] => none
  | ShellMode.single, cur, c :: rest =>
    if c = 39 then shellWords ShellMode.bare cur rest
    else shellWords ShellMode.single (pushChar cur c) rest
  | ShellMode.double, _, [] => none
  | ShellMode.double, cur, c :: rest =>
    if c = 34 then shellWords ShellMode.bare cur rest
    else if c = 92 then shellWords ShellMode.doubleEsc cur rest
    else if c = 36 ∨ c = 96 then none
    else shellWords ShellMode.double (pushChar cur c) rest
  | ShellMode.doubleEsc, _, [] => none
  | ShellMode.doubleEsc, cur, c :: rest =>
    if c = 36 ∨ c = 96 ∨ c = 34 ∨ c = 92 then shellWords ShellMode.double (pushChar cur c) rest
    else if c = 10 then shellWords ShellMode.double cur rest
    else shellWords ShellMode.double (pushChar (pushChar cur 92) c) rest

/-- The arguments a shell reads from `text`. -/
def shellArgs (text : List Nat) : Option (List (List Nat)) :=
  shellWords ShellMode.bare none text

/-! ## The character classes of the specification -/

/-- Alphanumerics and % + , - . / : = @ _ -/
def isPlainSafe (c : Nat) : Bool :=
  decide ((65 ≤ c ∧ c ≤ 90) ∨ (97 ≤ c ∧ c ≤ 122) ∨ (48 ≤ c ∧ c ≤ 57) ∨
    c ∈ [37, 43, 44, 45, 46, 47, 58, 61, 64, 95])

/-- The characters $ " \ and backtick. -/
def needsEscape (c : Nat) : Bool :=
  decide (c = 36 ∨ c = 34 ∨ c = 92 ∨ c = 96)

/-- A code point in 32..126. -/
def isPrintable (c : Nat) : Bool :=
  decide (32 ≤ c ∧ c ≤ 126)

/-- The table entry the specification gives a character below 128. -/
def classOf (c : Nat) : Nat :=
  if c < 32 ∨ c = 127 then 0
  else if c = 39 then 4
  else if needsEscape c then 14
  else if isPlainSafe c then 7
  else 6

/-- The characters of `s`, each preceded by a backslash when it is one of
$ " \ and backtick. -/
def escaped : List Nat → List Nat
  | [] => []
  | c :: cs => (if needsEscape c then [92, c] else [c]) ++ escaped cs

/-- The error the specification gives for a code point outside 32..126. -/
def errorFor (c : Nat) : Error :=
  if c ≥ 128 then Error.nonASCII c else Error.control c

/-- The four cases of the specification for a local path: `.` for the empty
string; `./` before a string that begins with - or ~; `./` before a string with
a colon in the part before its first slash (in all of it when it has no slash);
the string itself otherwise. -/
def localPathRef (s : List Nat) : List Nat :=
  if s = [] then [46]
  else if s.head? = some 45 ∨ s.head? = some 126 then [46, 47] ++ s
  else if 58 ∈ s.takeWhile (fun b => b != 47) then [46, 47] ++ s
  else s

/-- The style mask with the double flag, the plain flag when `p` and the single flag when `q`. -/
def styleMask (p q : Bool) : Nat :=
  (if p then maskPlain else 0) ||| (if q then maskSingle else 0) ||| maskDouble

/-! ## The range loop and the table -/

theorem decoderune_ge (s : List Nat) : 128 ≤ (decoderune s).1 := by
  unfold decoderune
  dsimp only
  repeat' split
  all_goals (simp only [runeError]; omega)

theorem rangeFrom_cons_lt (b : Nat) (bs : List Nat) (h : b < 128) :
    rangeFrom 0 (b :: bs) = b :: rangeFrom 0 bs := by
  simp [rangeFrom, runeSelf, h]

theorem rangeFrom_cons_ge (b : Nat) (bs : List Nat) (h : ¬ b < 128) :
    rangeFrom 0 (b :: bs) =
      (decoderune (b :: bs)).1 :: rangeFrom ((decoderune (b :: bs)).2 - 1) bs := by
  simp [rangeFrom, runeSelf, h]

theorem runes_eq_self : ∀ s : List Nat, (∀ c ∈ runes s, c < 128) → runes s = s := by
  intro s
  induction s with
  | nil => intro _; rfl
  | cons b bs ih =>
    intro h
    unfold runes at h ih ⊢
    by_cases hb : b < 128
    · rw [rangeFrom_cons_lt b bs hb] at h ⊢
      rw [ih (fun c hc => h c (List.mem_cons_of_mem _ hc))]
    · rw [rangeFrom_cons_ge b bs hb] at h
      have h1 := h _ (List.mem_cons_self _ _)
      have h2 := decoderune_ge (b :: bs)
      omega

theorem runes_ne_nil (s : List Nat) (h : s ≠ []) : runes s ≠ [] := by
  cases s with
  | nil => exact absurd rfl h
  | cons b bs =>
    unfold runes
    by_cases hb : b < 128
    · rw [rangeFrom_cons_lt b bs hb]; simp
    · rw [rangeFrom_cons_ge b bs hb]; simp

set_option maxRecDepth 1000000 in
theorem charMask_get : ∀ c, c < 128 → charMask[c]? = some (classOf c) := by decide

set_option maxRecDepth 1000000 in
theorem classOf_facts : ∀ c, c < 128 →
    (classOf c = 0 ↔ ¬ isPrintable c = true) ∧
    (classOf c &&& maskEscape ≠ 0 ↔ needsEscape c = true) ∧
    (∀ p q : Bool, isPrintable c = true →
      styleMask p q &&& classOf c = styleMask (p && isPlainSafe c) (q && (c != 39))) := by
  decide

set_option maxRecDepth 1000000 in
theorem charMask_eq : charMask = (List.range 128).map classOf := by decide

attribute [irreducible] charMask

/-! ## The loops -/

theorem styleMask_full : maskPlain ||| maskSingle ||| maskDouble = styleMask true true := by
  decide

theorem styleMask_plain (p q : Bool) : styleMask p q &&& maskPlain ≠ 0 ↔ p = true := by
  cases p <;> cases q <;> decide

theorem styleMask_single (p q : Bool) : styleMask p q &&& maskSingle ≠ 0 ↔ q = true := by
  cases p <;> cases q <;> decide

theorem isPrintable_lt {c : Nat} (h : isPrintable c = true) : c < 128 := by
  simp [isPrintable] at h; omega

theorem stringMaskLoop_printable : ∀ (cs : List Nat) (p q : Bool),
    (∀ c ∈ cs, isPrintable c = true) →
    stringMaskLoop (styleMask p q) cs =
      some (styleMask (p && cs.all isPlainSafe) (q && cs.all (fun c => c != 39)), none) := by
  intro cs
  induction cs with
  | nil => intro p q _; simp [stringMaskLoop]
  | cons c cs ih =>
    intro p q h
    have hc : isPrintable c = true := h c (List.mem_cons_self _ _)
    have hlt := isPrintable_lt hc
    obtain ⟨h0, -, hand⟩ := classOf_facts c hlt
    have hne : classOf c ≠ 0 := fun e => (h0.mp e) hc
    unfold stringMaskLoop
    rw [if_neg (by omega), charMask_get c hlt]
    simp only [if_neg hne]
    rw [hand p q hc, ih _ _ (fun d hd => h d (List.mem_cons_of_mem _ hd))]
    simp [Bool.and_assoc]

theorem stringMaskLoop_error (c : Nat) (post : List Nat) (hc : ¬ isPrintable c = true) :
    ∀ (pre : List Nat) (m : Nat), (∀ d ∈ pre, isPrintable d = true) →
    stringMaskLoop m (pre ++ c :: post) = some (0, some (errorFor c)) := by
  intro pre
  induction pre with
  | nil =>
    intro m _
    simp only [List.nil_append]
    unfold stringMaskLoop
    by_cases hge : c ≥ 128
    · simp [hge, errorFor]
    · have hlt : c < 128 := by omega
      obtain ⟨h0, -, -⟩ := classOf_facts c hlt
      rw [if_neg hge, charMask_get c hlt]
      simp [h0.mpr hc, errorFor, hge]
  | cons d pre ih =>
    intro m h
    have hd : isPrintable d = true := h d (List.mem_cons_self _ _)
    have hlt := isPrintable_lt hd
    obtain ⟨h0, -, -⟩ := classOf_facts d hlt
    have hne : classOf d ≠ 0 := fun e => (h0.mp e) hd
    simp only [List.cons_append]
    unfold stringMaskLoop
    rw [if_neg (by omega), charMask_get d hlt]
    simp only [if_neg hne]
    exact ih _ (fun e he => h e (List.mem_cons_of_mem _ he))

theorem writeEscaped_lt : ∀ (cs w : List Nat), (∀ c ∈ cs, c < 128) →
    writeEscaped w cs = some (w ++ escaped cs) := by
  intro cs
  induction cs with
  | nil => intro w _; simp [writeEscaped, escaped]
  | cons c cs ih =>
    intro w h
    have hlt : c < 128 := h c (List.mem_cons_self _ _)
    obtain ⟨-, hesc, -⟩ := classOf_facts c hlt
    unfold writeEscaped
    rw [charMask_get c hlt]
    simp only []
    rw [ih _ (fun d hd => h d (List.mem_cons_of_mem _ hd)), Nat.mod_eq_of_lt (by omega : c < 256)]
    by_cases he : needsEscape c = true
    · simp [escaped, he, hesc.mpr he]
    · have : ¬ (classOf c &&& maskEscape ≠ 0) := fun x => he (hesc.mp x)
      simp [escaped, he, this]

/-! ## String on printable and on unprintable input -/

theorem printable_of_bounds {l : List Nat} (h : ∀ c ∈ l, 32 ≤ c ∧ c ≤ 126) :
    ∀ c ∈ l, isPrintable c = true := by
  intro c hc
  have := h c hc
  simp [isPrintable]; omega

theorem runes_of_printable {s : List Nat} (h : ∀ c ∈ runes s, isPrintable c = true) :
    runes s = s :=
  runes_eq_self s (fun c hc => isPrintable_lt (h c hc))

theorem stringMask_printable {s : List Nat} (h : ∀ c ∈ runes s, isPrintable c = true) :
    stringMask s =
      some (styleMask (s.all isPlainSafe) (s.all (fun c => c != 39)), none) := by
  have hs := runes_of_printable h
  rw [hs] at h
  unfold stringMask
  rw [hs, styleMask_full, stringMaskLoop_printable s true true h]
  simp

theorem writeDoubleQuoted_printable {s : List Nat} (w : List Nat)
    (h : ∀ c ∈ runes s, isPrintable c = true) :
    writeDoubleQuoted w s = some (w ++ [34] ++ escaped s ++ [34]) := by
  have hs := runes_of_printable h
  rw [hs] at h
  unfold writeDoubleQuoted
  rw [hs, writeEscaped_lt s _ (fun c hc => isPrintable_lt (h c hc))]

/-- On a string of printable characters `String` is the choice between the
three styles. -/
theorem String_printable {s : List Nat} (h : ∀ c ∈ runes s, isPrintable c = true) :
    String s = some (
      if s = [] then [39, 39]
      else if s.all isPlainSafe = true then s
      else if s.all (fun c => c != 39) = true then [39] ++ s ++ [39]
      else [34] ++ escaped s ++ [34], none) := by
  unfold String
  by_cases h0 : s = []
  · simp [h0]
  · rw [if_neg h0, if_neg h0, stringMask_printable h]
    simp only [styleMask_plain, styleMask_single]
    by_cases hp : s.all isPlainSafe = true
    · simp [hp]
    · by_cases hq : s.all (fun c => c != 39) = true
      · simp only [hp, hq]; simp
      · rw [writeDoubleQuoted_printable [] h]
        simp only [hp, hq]; simp

/-- On a string with a code point outside 32..126 the result is the error for
the first such code point. -/
theorem String_unprintable {s pre post : List Nat} {c : Nat}
    (hs : runes s = pre ++ c :: post) (hpre : ∀ d ∈ pre, isPrintable d = true)
    (hc : ¬ isPrintable c = true) :
    String s = some ([], some (errorFor c)) := by
  have h0 : s ≠ [] := by
    intro e; subst e; simp [runes, rangeFrom] at hs
  unfold String stringMask
  rw [if_neg h0, hs, stringMaskLoop_error c post hc pre _ hpre]

/-- A list has only printable members, or a first member that is not. -/
theorem printable_or_first (l : List Nat) :
    (∀ c ∈ l, isPrintable c = true) ∨
    ∃ pre c post, l = pre ++ c :: post ∧ (∀ d ∈ pre, isPrintable d = true) ∧
      ¬ isPrintable c = true := by
  induction l with
  | nil => left; simp
  | cons a l ih =>
    by_cases ha : isPrintable a = true
    · rcases ih with h | ⟨pre, c, post, e, hpre, hc⟩
      · left
        intro c hc
        rcases List.mem_cons.mp hc with e | hm
        · rw [e]; exact ha
        · exact h c hm
      · right
        refine ⟨a :: pre, c, post, by rw [e]; rfl, ?_, hc⟩
        intro d hd
        rcases List.mem_cons.mp hd with e | hm
        · rw [e]; exact ha
        · exact hpre d hm
    · right
      exact ⟨[], a, l, rfl, by simp, ha⟩

/-! ## The shell reader on quoted text -/

theorem plainSafe_shell {c : Nat} (h : isPlainSafe c = true) :
    c ≠ 39 ∧ c ≠ 34 ∧ c ≠ 92 ∧ ¬ (c = 32 ∨ c = 9) ∧ shellSpecial c = false := by
  simp [isPlainSafe] at h
  refine ⟨by omega, by omega, by omega, by omega, ?_⟩
  simp [shellSpecial]
  omega

theorem shellWords_plain : ∀ (s w rest : List Nat), (∀ c ∈ s, isPlainSafe c = true) →
    shellWords ShellMode.bare (some w) (s ++ rest) =
      shellWords ShellMode.bare (some (w ++ s)) rest := by
  intro s
  induction s with
  | nil => intro w rest _; simp
  | cons c s ih =>
    intro w rest h
    obtain ⟨h1, h2, h3, h4, h5⟩ := plainSafe_shell (h c (List.mem_cons_self _ _))
    simp only [List.cons_append]
    rw [shellWords]
    simp only [if_neg h1, if_neg h2, if_neg h3, if_neg h4, h5, pushChar, Option.getD_some]
    rw [if_neg (by simp), ih _ _ (fun d hd => h d (List.mem_cons_of_mem _ hd))]
    simp

theorem shellWords_single : ∀ (s w rest : List Nat), (∀ c ∈ s, c ≠ 39) →
    shellWords ShellMode.single (some w) (s ++ 39 :: rest) =
      shellWords ShellMode.bare (some (w ++ s)) rest := by
  intro s
  induction s with
  | nil => intro w rest _; simp [shellWords]
  | cons c s ih =>
    intro w rest h
    have h1 : c ≠ 39 := h c (List.mem_cons_self _ _)
    simp only [List.cons_append]
    rw [shellWords]
    simp only [if_neg h1, pushChar, Option.getD_some]
    rw [ih _ _ (fun d hd => h d (List.mem_cons_of_mem _ hd))]
    simp

theorem shellWords_double : ∀ (s w rest : List Nat),
    shellWords ShellMode.double (some w) (escaped s ++ 34 :: rest) =
      shellWords ShellMode.bare (some (w ++ s)) rest := by
  intro s
  induction s with
  | nil => intro w rest; simp [shellWords, escaped]
  | cons c s ih =>
    intro w rest
    unfold escaped
    by_cases he : needsEscape c = true
    · have he2 : c = 36 ∨ c = 96 ∨ c = 34 ∨ c = 92 := by
        simp [needsEscape] at he; omega
      simp only [he, if_true, List.cons_append, List.nil_append]
      rw [shellWords]
      simp only [if_neg (by decide : ¬ (92 = 34)), if_true]
      simp only [shellWords, if_pos he2, pushChar, Option.getD_some]
      rw [ih]
      simp
    · have he2 : c ≠ 34 ∧ c ≠ 92 ∧ ¬ (c = 36 ∨ c = 96) := by
        simp [needsEscape] at he; omega
      rw [if_neg he]
      simp only [List.cons_append, List.nil_append]
      rw [shellWords]
      simp only [if_neg he2.1, if_neg he2.2.1, if_neg he2.2.2, pushChar, Option.getD_some]
      rw [ih]
      simp

theorem plainSafe_printable {c : Nat} (h : isPlainSafe c = true) : isPrintable c = true := by
  simp [isPlainSafe] at h
  simp [isPrintable]
  omega

theorem length_escaped_ge (s : List Nat) : s.length ≤ (escaped s).length := by
  induction s with
  | nil => simp [escaped]
  | cons c s ih =>
    unfold escaped
    split <;> simp <;> omega

/-- A non-empty string of plain-safe characters is returned as it is. -/
theorem String_of_plainSafe {s : List Nat} (hne : s ≠ [])
    (h : ∀ c ∈ runes s, isPlainSafe c = true) : String s = some (s, none) := by
  have hp : ∀ c ∈ runes s, isPrintable c = true := fun c hc => plainSafe_printable (h c hc)
  rw [String_printable hp, if_neg hne]
  rw [runes_of_printable hp] at h
  have h1 : s.all isPlainSafe = true := by simpa using h
  rw [if_pos h1]

theorem BareQuotedString_printable {s : List Nat} (h : ∀ c ∈ runes s, isPrintable c = true) :
    BareQuotedString s =
      some (if s.all isPlainSafe = true then s else escaped s, none) := by
  have hr := runes_of_printable h
  unfold BareQuotedString
  rw [stringMask_printable h]
  simp only [styleMask_plain]
  by_cases hp : s.all isPlainSafe = true
  · simp [hp]
  · rw [hr] at h
    rw [hr, writeEscaped_lt s [] (fun c hc => isPrintable_lt (h c hc))]
    simp only [hp]; simp

theorem BareQuotedString_unprintable {s pre post : List Nat} {c : Nat}
    (hs : runes s = pre ++ c :: post) (hpre : ∀ d ∈ pre, isPrintable d = true)
    (hc : ¬ isPrintable c = true) :
    BareQuotedString s = some ([], some (errorFor c)) := by
  unfold BareQuotedString stringMask
  rw [hs, stringMaskLoop_error c post hc pre _ hpre]

theorem exists_unprintable_iff (l : List Nat) :
    (∃ c ∈ l, c < 32 ∨ 126 < c) ↔ ¬ ∀ c ∈ l, isPrintable c = true := by
  simp [isPrintable]
  constructor
  · rintro ⟨c, hc, h⟩
    exact ⟨c, hc, fun _ => by omega⟩
  · rintro ⟨c, hc, h⟩
    refine ⟨c, hc, ?_⟩
    by_cases h32 : 32 ≤ c
    · right; exact h h32
    · left; omega

/-! ## Writing to a buffer, and commands -/

theorem writeEscaped_append : ∀ (cs w x : List Nat),
    writeEscaped (w ++ x) cs = (writeEscaped x cs).map (fun r => w ++ r) := by
  intro cs
  induction cs with
  | nil => intro w x; simp [writeEscaped]
  | cons c cs ih =>
    intro w x
    unfold writeEscaped
    cases charMask[c]? with
    | none => rfl
    | some cm =>
      simp only []
      split
      · rw [List.append_assoc, List.append_assoc, ih]
        simp
      · rw [List.append_assoc, ih]

theorem writeDoubleQuoted_append (w s : List Nat) :
    writeDoubleQuoted w s = (writeDoubleQuoted [] s).map (fun r => w ++ r) := by
  unfold writeDoubleQuoted
  rw [writeEscaped_append (runes s) w [34]]
  simp only [List.nil_append]
  cases writeEscaped [34] (runes s) <;> simp

/-- The function `WriteString` appends to the buffer what `String` returns, and
returns the error `String` returns. -/
theorem WriteString_eq (w s : List Nat) :
    WriteString w s = (String s).map (fun r => (w ++ r.1, r.2)) := by
  unfold WriteString String
  by_cases h0 : s = []
  · simp [h0]
  · rw [if_neg h0, if_neg h0]
    rcases hm : stringMask s with _ | ⟨m, _ | err⟩
    · rfl
    · simp only []
      split
      · rfl
      · split
        · simp
        · rw [writeDoubleQuoted_append w s]
          cases writeDoubleQuoted [] s <;> simp
    · simp

theorem intercalate_cons_cons {α : Type} (sep x y : List α) (l : List (List α)) :
    List.intercalate sep (x :: y :: l) = x ++ sep ++ List.intercalate sep (y :: l) := by
  simp [List.intercalate, List.intersperse]

theorem WriteCommandLoop_ok : ∀ (cmd outs : List (List Nat)) (w : List Nat) (i : Nat),
    List.Forall₂ (fun a o => String a = some (o, none)) cmd outs →
    WriteCommandLoop w i cmd =
      some (w ++ (if i > 0 ∧ outs ≠ [] then [32] else []) ++ List.intercalate [32] outs,
        none) := by
  intro cmd outs w i h
  induction h generalizing w i with
  | nil => simp [WriteCommandLoop, List.intercalate]
  | @cons a o cmd outs hao _ ih =>
    unfold WriteCommandLoop
    rw [WriteString_eq, hao]
    simp only [Option.map_some']
    rw [ih]
    cases outs with
    | nil =>
      by_cases hi : i > 0 <;> simp [hi, List.intercalate]
    | cons o2 outs =>
      rw [intercalate_cons_cons]
      by_cases hi : i > 0 <;> simp [hi]

/-- The shell reads what `String` returns for a printable string as one
argument, the string. -/
theorem String_shellArgs (s : List Nat) (h : ∀ c ∈ runes s, 32 ≤ c ∧ c ≤ 126) :
    ∃ out, String s = some (out, none) ∧ shellArgs out = some [s] := by
  have hp := printable_of_bounds h
  refine ⟨_, String_printable hp, ?_⟩
  unfold shellArgs
  by_cases h0 : s = []
  · subst h0
    simp [shellWords]
  · rw [if_neg h0]
    by_cases h1 : s.all isPlainSafe = true
    · rw [if_pos h1]
      cases s with
      | nil => exact absurd rfl h0
      | cons c t =>
        have hall : ∀ d ∈ c :: t, isPlainSafe d = true := by simpa using h1
        obtain ⟨a1, a2, a3, a4, a5⟩ := plainSafe_shell (hall c (List.mem_cons_self _ _))
        rw [shellWords]
        simp only [if_neg a1, if_neg a2, if_neg a3, if_neg a4, a5, pushChar]
        rw [if_neg (by simp)]
        have := shellWords_plain t [c] [] (fun d hd => hall d (List.mem_cons_of_mem _ hd))
        simp only [List.append_nil] at this
        simp [this, shellWords]
    · rw [if_neg h1]
      by_cases h2 : s.all (fun c => c != 39) = true
      · rw [if_pos h2]
        have hall : ∀ d ∈ s, d ≠ 39 := by simpa using h2
        have := shellWords_single s [] [] hall
        simp only [List.append_assoc, List.cons_append, List.nil_append]
        rw [shellWords]
        simp [this, shellWords]
      · rw [if_neg h2]
        have := shellWords_double s [] []
        simp only [List.append_assoc, List.cons_append, List.nil_append]
        rw [shellWords]
        simp [this, shellWords]

/-! ## The claims -/

/-- C1: for every string whose characters all lie in 32..126, the empty string
included, `String` succeeds and the shell reads its result as exactly one
argument, equal to the string. -/
theorem String_roundtrip (s : List Nat) (h : ∀ c ∈ runes s, 32 ≤ c ∧ c ≤ 126) :
    ∃ out, String s = some (out, none) ∧ shellArgs out = some [s] :=
  String_shellArgs s h

/-- A printable string with a space, a single quote, a dollar sign and a
backslash is read back as itself. -/
theorem String_roundtrip_witness :
    (∀ c ∈ runes [97, 32, 39, 36, 92], 32 ≤ c ∧ c ≤ 126) ∧
    ∃ out, String [97, 32, 39, 36, 92] = some (out, none) ∧
      shellArgs out = some [[97, 32, 39, 36, 92]] :=
  ⟨by decide, String_roundtrip [97, 32, 39, 36, 92] (by decide)⟩

/-- C2 as stated fails on the empty string: all of its (no) characters are
plain-safe, and `String` returns the two quotes, not the string. -/
theorem String_plain_empty :
    (∀ c ∈ runes [], isPlainSafe c = true) ∧ String [] = some ([39, 39], none) ∧
      String [] ≠ some ([], none) := by
  decide

/-- C2, amended: for every non-empty string made of alphanumerics and
% + , - . / : = @ _ only, `String` succeeds and returns the string itself. -/
theorem String_plain (s : List Nat) (hne : s ≠ [])
    (h : ∀ c ∈ runes s, isPlainSafe c = true) : String s = some (s, none) :=
  String_of_plainSafe hne h

/-- The string azAZ09_-%+,-./:=@_ of the tests is returned unchanged. -/
theorem String_plain_witness :
    String [97, 122, 65, 90, 48, 57, 95, 45, 37, 43, 44, 45, 46, 47, 58, 61, 64, 95] =
      some ([97, 122, 65, 90, 48, 57, 95, 45, 37, 43, 44, 45, 46, 47, 58, 61, 64, 95], none) :=
  String_plain _ (by decide) (by decide)

/-- C3: `String` succeeds with the string itself as result exactly when the
string is non-empty and each of its characters is an alphanumeric or one of
% + , - . / : = @ _. -/
theorem String_eq_self_iff (s : List Nat) :
    String s = some (s, none) ↔ s ≠ [] ∧ ∀ c ∈ runes s, isPlainSafe c = true := by
  constructor
  · intro hs
    rcases printable_or_first (runes s) with hp | ⟨pre, c, post, e, hpre, hc⟩
    · rw [String_printable hp] at hs
      have hr := runes_of_printable hp
      by_cases h0 : s = []
      · subst h0; simp at hs
      · refine ⟨h0, ?_⟩
        rw [if_neg h0] at hs
        by_cases h1 : s.all isPlainSafe = true
        · rw [hr]; simpa using h1
        · rw [if_neg h1] at hs
          exfalso
          have hlen := length_escaped_ge s
          split at hs
          · have := congrArg List.length (Prod.mk.inj (Option.some.inj hs)).1
            simp at this
            omega
          · have := congrArg List.length (Prod.mk.inj (Option.some.inj hs)).1
            simp at this
            omega
    · rw [String_unprintable e hpre hc] at hs
      simp at hs
  · rintro ⟨h0, h⟩
    exact String_of_plainSafe h0 h

/-- C4: for every string whose characters all lie in 32..126, that has no
single quote, and that is empty or has a character outside the plain-safe set,
`String` succeeds and returns the string between two single quotes, with no
character of it changed. -/
theorem String_single (s : List Nat) (hb : ∀ c ∈ runes s, 32 ≤ c ∧ c ≤ 126)
    (hq : ∀ c ∈ runes s, c ≠ 39) (hn : s = [] ∨ ∃ c ∈ runes s, isPlainSafe c = false) :
    String s = some ([39] ++ s ++ [39], none) := by
  have hp := printable_of_bounds hb
  rw [String_printable hp]
  rw [runes_of_printable hp] at hq hn
  by_cases h0 : s = []
  · subst h0; rfl
  · rw [if_neg h0]
    have h1 : ¬ s.all isPlainSafe = true := by
      rcases hn with e | ⟨c, hc, hf⟩
      · exact absurd e h0
      · intro hall
        have := (List.all_eq_true.mp hall) c hc
        rw [hf] at this
        exact Bool.noConfusion this
    have h2 : s.all (fun c => c != 39) = true := by simpa using hq
    rw [if_neg h1, if_pos h2]

/-- The empty string, the dollar sign and the space are each put between single
quotes. -/
theorem String_single_witness :
    String [] = some ([39, 39], none) ∧ String [36] = some ([39, 36, 39], none) ∧
      String [32] = some ([39, 32, 39], none) :=
  ⟨String_single [] (by decide) (by decide) (by decide),
   String_single [36] (by decide) (by decide) (by decide),
   String_single [32] (by decide) (by decide) (by decide)⟩

/-- C5: for every string whose characters all lie in 32..126 and that has a
single quote, `String` succeeds and returns a double quote, the characters of
the string in order, each after one backslash exactly when it is one of
$ " \ and backtick, and a closing double quote. -/
theorem String_double (s : List Nat) (hb : ∀ c ∈ runes s, 32 ≤ c ∧ c ≤ 126)
    (hq : 39 ∈ runes s) : String s = some ([34] ++ escaped s ++ [34], none) := by
  have hp := printable_of_bounds hb
  rw [String_printable hp]
  rw [runes_of_printable hp] at hq
  have h0 : s ≠ [] := List.ne_nil_of_mem hq
  have h1 : ¬ s.all isPlainSafe = true := by
    intro hall
    have := (List.all_eq_true.mp hall) 39 hq
    exact absurd this (by decide)
  have h2 : ¬ s.all (fun c => c != 39) = true := by
    intro hall
    have := (List.all_eq_true.mp hall) 39 hq
    exact absurd this (by decide)
  rw [if_neg h0, if_neg h1, if_neg h2]

/-- The five characters backtick, single quote, backslash, dollar sign and
double quote give the text of the tests. -/
theorem String_double_witness :
    String [96, 39, 92, 36, 34] =
      some ([34, 92, 96, 39, 92, 92, 92, 36, 92, 34, 34], none) :=
  String_double [96, 39, 92, 36, 34] (by decide) (by decide)

/-- C6: for a string with none of $ " \ backtick and no single quote, the result
of `String` never begins with a double quote. -/
theorem String_not_double (s : List Nat)
    (h : ∀ c ∈ runes s, c ≠ 36 ∧ c ≠ 34 ∧ c ≠ 92 ∧ c ≠ 96 ∧ c ≠ 39)
    (out : List Nat) (e : Option Error) (hs : String s = some (out, e)) :
    out.head? ≠ some 34 := by
  rcases printable_or_first (runes s) with hp | ⟨pre, c, post, er, hpre, hc⟩
  · rw [String_printable hp] at hs
    rw [runes_of_printable hp] at h
    have hout := (Prod.mk.inj (Option.some.inj hs)).1
    rw [← hout]
    by_cases h0 : s = []
    · rw [if_pos h0]; decide
    · rw [if_neg h0]
      by_cases h1 : s.all isPlainSafe = true
      · rw [if_pos h1]
        cases s with
        | nil => exact absurd rfl h0
        | cons a t =>
          have := (h a (List.mem_cons_self _ _)).2.1
          simpa using this
      · rw [if_neg h1]
        have h2 : s.all (fun c => c != 39) = true := by
          simpa using fun c hc => (h c hc).2.2.2.2
        rw [if_pos h2]
        simp
  · rw [String_unprintable er hpre hc] at hs
    have hout := (Prod.mk.inj (Option.some.inj hs)).1
    rw [← hout]
    simp

/-- The string a|b, with no escape-requiring character and no single quote, is
put between single quotes. -/
theorem String_not_double_witness :
    (∀ c ∈ runes [97, 124, 98], c ≠ 36 ∧ c ≠ 34 ∧ c ≠ 92 ∧ c ≠ 96 ∧ c ≠ 39) ∧
    String [97, 124, 98] = some ([39, 97, 124, 98, 39], none) ∧
    List.head? [39, 97, 124, 98, 39] ≠ some 34 :=
  have hs : String [97, 124, 98] = some ([39, 97, 124, 98, 39], none) :=
    @String_printable [97, 124, 98] (by decide)
  ⟨by decide, hs, String_not_double [97, 124, 98] (by decide) _ _ hs⟩

/-- C7: `String` returns an error exactly when its argument has a code point
outside 32..126, and returns a result without error otherwise; so does
`BareQuotedString`. -/
theorem String_error_iff (s : List Nat) :
    ((∃ e, String s = some ([], some e)) ↔ ∃ c ∈ runes s, c < 32 ∨ 126 < c) ∧
    ((∃ out, String s = some (out, none)) ↔ ¬ ∃ c ∈ runes s, c < 32 ∨ 126 < c) ∧
    ((∃ e, BareQuotedString s = some ([], some e)) ↔ ∃ c ∈ runes s, c < 32 ∨ 126 < c) ∧
    ((∃ out, BareQuotedString s = some (out, none)) ↔ ¬ ∃ c ∈ runes s, c < 32 ∨ 126 < c) := by
  rw [exists_unprintable_iff]
  rcases printable_or_first (runes s) with hp | ⟨pre, c, post, e, hpre, hc⟩
  · rw [String_printable hp, BareQuotedString_printable hp]
    simp only [Option.some.injEq, Prod.mk.injEq, reduceCtorEq, and_false, exists_false,
      and_true, exists_eq', not_not, false_iff, true_iff]
    exact ⟨hp, hp, hp, hp⟩
  · have hn : ¬ ∀ c ∈ runes s, isPrintable c = true := by
      intro h
      exact hc (h c (by rw [e]; simp))
    rw [String_unprintable e hpre hc, BareQuotedString_unprintable e hpre hc]
    simp [hn]

/-- C8 as stated fails where both kinds of character occur: the string of the
bytes of U+00E9 and then byte 1 has a byte in 0..31 and gets the non-ASCII
error, and the string of byte 1 and then U+00E9 has a code point above 127 and
gets the control-character error. -/
theorem String_rejection_mixed :
    (1 ∈ runes [195, 169, 1] ∧
      String [195, 169, 1] = some ([], some (Error.nonASCII 233)) ∧
      ∀ c, String [195, 169, 1] ≠ some ([], some (Error.control c))) ∧
    (233 ∈ runes [1, 195, 169] ∧
      String [1, 195, 169] = some ([], some (Error.control 1)) ∧
      ∀ c, String [1, 195, 169] ≠ some ([], some (Error.nonASCII c))) := by
  have h1 : String [195, 169, 1] = some ([], some (Error.nonASCII 233)) :=
    @String_unprintable [195, 169, 1] [] [1] 233
      (by decide) (by decide) (by decide)
  have h2 : String [1, 195, 169] = some ([], some (Error.control 1)) :=
    @String_unprintable [1, 195, 169] [] [233] 1
      (by decide) (by decide) (by decide)
  refine ⟨⟨by decide, h1, ?_⟩, ⟨by decide, h2, ?_⟩⟩
  · intro c; rw [h1]; simp
  · intro c; rw [h2]; simp

/-- C8, amended: `String` of a string with a byte value 0..31 or 127 that no
code point above 127 precedes returns a control-character error, and `String` of
a string with a code point above 127 that no byte value 0..31 or 127 precedes
returns a non-ASCII error. -/
theorem String_rejection (s pre post : List Nat) (c : Nat)
    (hs : runes s = pre ++ c :: post) :
    ((c < 32 ∨ c = 127) → (∀ d ∈ pre, d < 128) →
      ∃ d, String s = some ([], some (Error.control d))) ∧
    (128 ≤ c → (∀ d ∈ pre, 32 ≤ d ∧ d ≠ 127) →
      ∃ d, String s = some ([], some (Error.nonASCII d))) := by
  constructor
  · intro hc hpre
    rcases printable_or_first pre with hp | ⟨p1, d, p2, e, hp1, hd⟩
    · refine ⟨c, ?_⟩
      have hn : ¬ isPrintable c = true := by simp [isPrintable]; omega
      rw [String_unprintable hs hp hn]
      simp [errorFor]; omega
    · refine ⟨d, ?_⟩
      have hlt : d < 128 := hpre d (by rw [e]; simp)
      rw [@String_unprintable s p1 (p2 ++ c :: post) d (by rw [hs, e]; simp) hp1 hd]
      simp [errorFor]; omega
  · intro hc hpre
    rcases printable_or_first pre with hp | ⟨p1, d, p2, e, hp1, hd⟩
    · refine ⟨c, ?_⟩
      have hn : ¬ isPrintable c = true := by simp [isPrintable]; omega
      rw [String_unprintable hs hp hn]
      simp [errorFor]; omega
    · refine ⟨d, ?_⟩
      have hb := hpre d (by rw [e]; simp)
      have hge : 128 ≤ d := by
        simp [isPrintable] at hd
        have := hd hb.1
        omega
      rw [@String_unprintable s p1 (p2 ++ c :: post) d (by rw [hs, e]; simp) hp1 hd]
      simp [errorFor]; omega

/-- In the bytes a, 1, U+00E9 the control byte comes first, and in the bytes a,
U+00E9, 1 the code point above 127 does. -/
theorem String_rejection_witness :
    (∃ d, String [97, 1, 195, 169] = some ([], some (Error.control d))) ∧
    (∃ d, String [97, 195, 169, 1] = some ([], some (Error.nonASCII d))) :=
  ⟨(String_rejection [97, 1, 195, 169] [97] [233] 1 (by decide)).1
      (by decide) (by decide),
   (String_rejection [97, 195, 169, 1] [97] [1] 233 (by decide)).2
      (by decide) (by decide)⟩

/-- C9: when the code points of a string before `c` all lie in 32..126 and `c`
does not, `String` returns the error for `c`, whatever follows `c`: the
non-ASCII error naming `c` when `c` is 128 or more, and the control-character
error naming `c` otherwise. -/
theorem String_first_error (s pre post : List Nat) (c : Nat)
    (hs : runes s = pre ++ c :: post) (hpre : ∀ d ∈ pre, 32 ≤ d ∧ d ≤ 126)
    (hc : c < 32 ∨ 126 < c) :
    String s = some ([], some (if 128 ≤ c then Error.nonASCII c else Error.control c)) := by
  have hn : ¬ isPrintable c = true := by simp [isPrintable]; omega
  rw [String_unprintable hs (printable_of_bounds hpre) hn]
  rfl

/-- After the bytes a and b, the code point U+20AC gives the non-ASCII error
naming it, and the byte 127 the control-character error, whatever follows. -/
theorem String_first_error_witness :
    String [97, 98, 226, 130, 172, 1, 99] = some ([], some (Error.nonASCII 8364)) ∧
    String [97, 98, 127, 226, 130, 172] = some ([], some (Error.control 127)) :=
  ⟨String_first_error [97, 98, 226, 130, 172, 1, 99] [97, 98] [1, 99] 8364
      (by decide) (by decide) (by decide),
   String_first_error [97, 98, 127, 226, 130, 172] [97, 98] [8364] 127
      (by decide) (by decide) (by decide)⟩

/-- C10: when `String` succeeds on every element of a list, with the results
`outs` in order, `Command` succeeds and returns those results joined by single
spaces, with no space before the first or after the last. -/
theorem Command_join (cmd outs : List (List Nat))
    (h : List.Forall₂ (fun a o => String a = some (o, none)) cmd outs) :
    Command cmd = some (List.intercalate [32] outs, none) := by
  unfold Command WriteCommand
  rw [WriteCommandLoop_ok cmd outs [] 0 h]
  simp

/-- The command a, b c and the empty string gives a 'b c' '', and the empty
command the empty text. -/
theorem Command_join_witness :
    Command [[97], [98, 32, 99], []] =
      some ([97, 32, 39, 98, 32, 99, 39, 32, 39, 39], none) ∧
    Command [] = some ([], none) :=
  ⟨Command_join [[97], [98, 32, 99], []] [[97], [39, 98, 32, 99, 39], [39, 39]]
    (List.Forall₂.cons (@String_printable [97] (by decide))
      (List.Forall₂.cons (@String_printable [98, 32, 99] (by decide))
        (List.Forall₂.cons (@String_printable [] (by decide)) List.Forall₂.nil))),
   Command_join [] [] List.Forall₂.nil⟩

/-! ## Failure of an element of a command -/

theorem String_error_nil {a out : List Nat} {e : Error}
    (h : String a = some (out, some e)) : out = [] := by
  rcases printable_or_first (runes a) with hp | ⟨pre, c, post, er, hpre, hc⟩
  · rw [String_printable hp] at h
    simp at h
  · rw [String_unprintable er hpre hc] at h
    exact ((Prod.mk.inj (Option.some.inj h)).1).symm

theorem String_total (a : List Nat) :
    (∃ o, String a = some (o, none)) ∨ ∃ e, String a = some ([], some e) := by
  rcases printable_or_first (runes a) with hp | ⟨pre, c, post, er, hpre, hc⟩
  · exact Or.inl ⟨_, String_printable hp⟩
  · exact Or.inr ⟨_, String_unprintable er hpre hc⟩

theorem forall₂_of_forall_ok : ∀ (l : List (List Nat)),
    (∀ x ∈ l, ∃ o, String x = some (o, none)) →
    ∃ outs, List.Forall₂ (fun a o => String a = some (o, none)) l outs := by
  intro l
  induction l with
  | nil => intro _; exact ⟨[], List.Forall₂.nil⟩
  | cons x l ih =>
    intro h
    obtain ⟨o, ho⟩ := h x (List.mem_cons_self _ _)
    obtain ⟨outs, hf⟩ := ih (fun y hy => h y (List.mem_cons_of_mem _ hy))
    exact ⟨o :: outs, List.Forall₂.cons ho hf⟩

/-- A command has only elements that `String` quotes, or a first element on
which `String` fails. -/
theorem ok_or_first_failure (cmd : List (List Nat)) :
    (∀ x ∈ cmd, ∃ o, String x = some (o, none)) ∨
    ∃ pre a post e, cmd = pre ++ a :: post ∧
      (∀ x ∈ pre, ∃ o, String x = some (o, none)) ∧ String a = some ([], some e) := by
  induction cmd with
  | nil => left; simp
  | cons x l ih =>
    rcases String_total x with ⟨o, ho⟩ | ⟨e, he⟩
    · rcases ih with h | ⟨pre, a, post, e, hc, hpre, ha⟩
      · left
        intro y hy
        rcases List.mem_cons.mp hy with hx | hm
        · rw [hx]; exact ⟨o, ho⟩
        · exact h y hm
      · right
        refine ⟨x :: pre, a, post, e, by rw [hc]; rfl, ?_, ha⟩
        intro y hy
        rcases List.mem_cons.mp hy with hx | hm
        · rw [hx]; exact ⟨o, ho⟩
        · exact hpre y hm
    · right
      exact ⟨[], x, l, e, rfl, by simp, he⟩

theorem WriteCommandLoop_fail (a : List Nat) (post : List (List Nat)) (e : Error)
    (ha : String a = some ([], some e)) :
    ∀ (pre outs : List (List Nat)) (w : List Nat) (i : Nat),
    List.Forall₂ (fun x o => String x = some (o, none)) pre outs →
    WriteCommandLoop w i (pre ++ a :: post) =
      some (w ++ (if i > 0 ∧ outs ≠ [] then [32] else []) ++ List.intercalate [32] outs ++
        (if i > 0 ∨ outs ≠ [] then [32] else []), some e) := by
  intro pre outs w i h
  induction h generalizing w i with
  | nil =>
    simp only [List.nil_append]
    unfold WriteCommandLoop
    rw [WriteString_eq, ha]
    by_cases hi : i > 0 <;> simp [hi, List.intercalate]
  | @cons x o pre outs hxo _ ih =>
    simp only [List.cons_append]
    unfold WriteCommandLoop
    rw [WriteString_eq, hxo]
    simp only [Option.map_some']
    rw [ih]
    cases outs with
    | nil =>
      by_cases hi : i > 0 <;> simp [hi, List.intercalate]
    | cons o2 outs =>
      rw [intercalate_cons_cons]
      by_cases hi : i > 0 <;> simp [hi]

theorem Command_of_first_failure {pre post : List (List Nat)} {a : List Nat} {e : Error}
    (hpre : ∀ x ∈ pre, ∃ o, String x = some (o, none))
    (ha : String a = some ([], some e)) :
    Command (pre ++ a :: post) = some ([], some e) := by
  obtain ⟨outs, hf⟩ := forall₂_of_forall_ok pre hpre
  unfold Command WriteCommand
  rw [WriteCommandLoop_fail a post e ha pre outs [] 0 hf]

/-! ## The claims, continued -/

/-- C11: `Command` fails exactly when `String` fails on some element, and then
returns the empty text and the error `String` gives for the first failing
element, whatever the elements after it. -/
theorem Command_first_failure (cmd : List (List Nat)) :
    ((∃ out e, Command cmd = some (out, some e)) ↔
      ∃ a ∈ cmd, ∃ out e, String a = some (out, some e)) ∧
    (∀ (pre post : List (List Nat)) (a out : List Nat) (e : Error),
      cmd = pre ++ a :: post → (∀ x ∈ pre, ∃ o, String x = some (o, none)) →
      String a = some (out, some e) → Command cmd = some ([], some e)) := by
  constructor
  · constructor
    · rintro ⟨out, e, hc⟩
      rcases ok_or_first_failure cmd with h | ⟨pre, a, post, e2, hcmd, -, ha⟩
      · obtain ⟨outs, hf⟩ := forall₂_of_forall_ok cmd h
        unfold Command WriteCommand at hc
        rw [WriteCommandLoop_ok cmd outs [] 0 hf] at hc
        simp at hc
      · exact ⟨a, by rw [hcmd]; simp, [], e2, ha⟩
    · rintro ⟨a, ha, out, e, hs⟩
      rcases ok_or_first_failure cmd with h | ⟨pre, a2, post, e2, hcmd, hpre, ha2⟩
      · obtain ⟨o, ho⟩ := h a ha
        rw [ho] at hs
        simp at hs
      · exact ⟨[], e2, by rw [hcmd]; exact Command_of_first_failure hpre ha2⟩
  · intro pre post a out e hcmd hpre ha
    have hnil := String_error_nil ha
    subst hnil
    rw [hcmd]
    exact Command_of_first_failure hpre ha

/-- In the command a, U+00E9, byte 1 the second element is the first to fail,
and `Command` returns its error, not that of the third. -/
theorem Command_first_failure_witness :
    String [195, 169] = some ([], some (Error.nonASCII 233)) ∧
    String [1] = some ([], some (Error.control 1)) ∧
    Command [[97], [195, 169], [1]] = some ([], some (Error.nonASCII 233)) :=
  have h1 : String [97] = some ([97], none) := @String_printable [97] (by decide)
  have h2 : String [195, 169] = some ([], some (Error.nonASCII 233)) :=
    @String_unprintable [195, 169] [] [] 233 (by decide) (by decide) (by decide)
  have h3 : String [1] = some ([], some (Error.control 1)) :=
    @String_unprintable [1] [] [] 1 (by decide) (by decide) (by decide)
  ⟨h2, h3, (Command_first_failure [[97], [195, 169], [1]]).2 [[97]] [[1]] [195, 169] []
    (Error.nonASCII 233) rfl
    (fun x hx => ⟨[97], by rw [List.mem_singleton.mp hx]; exact h1⟩) h2⟩

/-- C12: `WriteString` on a buffer holding `b` succeeds exactly when `String`
does and fails with the error of `String` otherwise; on success the buffer holds
`b` and then the result of `String`, and one of the two always happens. -/
theorem WriteString_agrees (b s : List Nat) :
    ((∃ w, WriteString b s = some (w, none)) ↔ ∃ out, String s = some (out, none)) ∧
    (∀ e, (∃ w, WriteString b s = some (w, some e)) ↔
      ∃ out, String s = some (out, some e)) ∧
    (∀ out, String s = some (out, none) → WriteString b s = some (b ++ out, none)) ∧
    (∀ out e, String s = some (out, some e) → WriteString b s = some (b, some e)) ∧
    String s ≠ none := by
  rw [WriteString_eq]
  rcases String_total s with ⟨o, ho⟩ | ⟨e, he⟩
  · rw [ho]; simp
  · rw [he]; simp

/-- On a buffer holding x the string b c is written between single quotes
after the x, and the string of byte 1 leaves the buffer as it was. -/
theorem WriteString_agrees_witness :
    WriteString [120] [98, 32, 99] = some ([120, 39, 98, 32, 99, 39], none) ∧
    WriteString [120] [1] = some ([120], some (Error.control 1)) :=
  ⟨(WriteString_agrees [120] [98, 32, 99]).2.2.1 [39, 98, 32, 99, 39]
      (@String_printable [98, 32, 99] (by decide)),
   (WriteString_agrees [120] [1]).2.2.2.1 [] (Error.control 1)
      (@String_unprintable [1] [] [] 1 (by decide) (by decide) (by decide))⟩

/-- C13: when `String` quotes the elements before index `i` of a command, to
`outs`, and fails on the element at `i`, `WriteCommand` on a buffer holding `b`
returns that element's error and leaves the buffer holding `b`, then `outs`
joined by single spaces, then one more space when `i > 0`: what was written
stays, and nothing of the failing or of a later element is written. -/
theorem WriteCommand_not_transactional (b : List Nat) (pre post outs : List (List Nat))
    (a out : List Nat) (e : Error)
    (hpre : List.Forall₂ (fun x o => String x = some (o, none)) pre outs)
    (ha : String a = some (out, some e)) :
    WriteCommand b (pre ++ a :: post) =
      some (b ++ List.intercalate [32] outs ++ (if pre.length > 0 then [32] else []),
        some e) := by
  have hnil := String_error_nil ha
  subst hnil
  unfold WriteCommand
  rw [WriteCommandLoop_fail a post e ha pre outs b 0 hpre]
  have hlen := hpre.length_eq
  cases pre with
  | nil =>
    cases outs with
    | nil => simp [List.intercalate]
    | cons o outs => simp at hlen
  | cons x pre =>
    cases outs with
    | nil => simp at hlen
    | cons o outs => simp

/-- On a buffer holding x, the command a, b c, byte 1, d leaves x, then
a 'b c' and a space, and returns the error of the third element. -/
theorem WriteCommand_not_transactional_witness :
    WriteCommand [120] [[97], [98, 32, 99], [1], [100]] =
      some ([120, 97, 32, 39, 98, 32, 99, 39, 32], some (Error.control 1)) ∧
    WriteCommand [120] [[1], [100]] = some ([120], some (Error.control 1)) :=
  have h1 : String [97] = some ([97], none) := @String_printable [97] (by decide)
  have h2 : String [98, 32, 99] = some ([39, 98, 32, 99, 39], none) :=
    @String_printable [98, 32, 99] (by decide)
  have h3 : String [1] = some ([], some (Error.control 1)) :=
    @String_unprintable [1] [] [] 1 (by decide) (by decide) (by decide)
  ⟨WriteCommand_not_transactional [120] [[97], [98, 32, 99]] [[100]]
      [[97], [39, 98, 32, 99, 39]] [1] [] (Error.control 1)
      (List.Forall₂.cons h1 (List.Forall₂.cons h2 List.Forall₂.nil)) h3,
   WriteCommand_not_transactional [120] [] [[100]] [] [1] [] (Error.control 1)
      List.Forall₂.nil h3⟩

/-! ## Lemmas on local paths -/

theorem indexByteFrom_not_mem (c : Nat) : ∀ (s : List Nat) (i : Nat),
    c ∉ s → indexByteFrom c i s = -1 := by
  intro s
  induction s with
  | nil => intro i _; rfl
  | cons b bs ih =>
    intro i h
    have hb : b ≠ c := fun e => h (by rw [e]; exact List.mem_cons_self _ _)
    have hbs : c ∉ bs := fun m => h (List.mem_cons_of_mem _ m)
    unfold indexByteFrom
    rw [if_neg hb, ih (i + 1) hbs]

theorem indexByteFrom_mem (c : Nat) : ∀ (s : List Nat) (i : Nat),
    c ∈ s → indexByteFrom c i s = ((i + (s.takeWhile (fun b => b != c)).length : Nat) : Int) := by
  intro s
  induction s with
  | nil => intro i h; exact absurd h (List.not_mem_nil _)
  | cons b bs ih =>
    intro i h
    unfold indexByteFrom
    by_cases hb : b = c
    · have hb2 : (b != c) = false := by simpa using hb
      rw [if_pos hb, List.takeWhile_cons, hb2]
      simp
    · have hb2 : (b != c) = true := by simpa using hb
      rw [if_neg hb]
      have hbs : c ∈ bs := by
        rcases List.mem_cons.mp h with e | m
        · exact absurd e.symm hb
        · exact m
      rw [ih (i + 1) hbs, List.takeWhile_cons, hb2]
      simp only [if_true, List.length_cons]
      congr 1
      omega

theorem length_takeWhile_lt (c : Nat) : ∀ s : List Nat,
    c ∈ s → (s.takeWhile (fun b => b != c)).length < s.length := by
  intro s
  induction s with
  | nil => intro h; exact absurd h (List.not_mem_nil _)
  | cons b bs ih =>
    intro h
    by_cases hb : b = c
    · have hb2 : (b != c) = false := by simpa using hb
      rw [List.takeWhile_cons, hb2]
      simp
    · have hb2 : (b != c) = true := by simpa using hb
      have hbs : c ∈ bs := by
        rcases List.mem_cons.mp h with e | m
        · exact absurd e.symm hb
        · exact m
      rw [List.takeWhile_cons, hb2]
      simp only [if_true, List.length_cons]
      exact Nat.succ_lt_succ (ih hbs)

/-- The index `strings.IndexByte` returns is -1 or that of a byte of `s`. -/
theorem IndexByte_bounds (s : List Nat) (c : Nat) :
    IndexByte s c = -1 ∨ (0 ≤ IndexByte s c ∧ IndexByte s c < s.length) := by
  unfold IndexByte
  by_cases h : c ∈ s
  · right
    rw [indexByteFrom_mem c s 0 h]
    have h1 := length_takeWhile_lt c s h
    constructor
    · exact Int.ofNat_nonneg _
    · simp only [Nat.zero_add]
      exact_mod_cast h1
  · left
    exact indexByteFrom_not_mem c s 0 h

theorem IndexByte_eq_neg_one_iff (s : List Nat) (c : Nat) : IndexByte s c = -1 ↔ c ∉ s := by
  constructor
  · intro h hm
    unfold IndexByte at h
    rw [indexByteFrom_mem c s 0 hm] at h
    have : (0 : Int) ≤ ((0 + (s.takeWhile (fun b => b != c)).length : Nat) : Int) :=
      Int.ofNat_nonneg _
    omega
  · exact indexByteFrom_not_mem c s 0

theorem take_length_takeWhile (p : Nat → Bool) : ∀ s : List Nat,
    s.take (s.takeWhile p).length = s.takeWhile p := by
  intro s
  induction s with
  | nil => rfl
  | cons b bs ih =>
    by_cases hb : p b = true
    · simp [List.takeWhile, hb, ih]
    · simp [List.takeWhile, hb]

/-- The part of `s` that `LocalPath` calls `leading` is the part before the
first slash. -/
theorem leading_eq_takeWhile (s : List Nat) :
    (if IndexByte s 47 ≠ -1 then s.take (IndexByte s 47).toNat else s) =
      s.takeWhile (fun b => b != 47) := by
  by_cases h : 47 ∈ s
  · have hne : IndexByte s 47 ≠ -1 := fun e => (IndexByte_eq_neg_one_iff s 47).mp e h
    rw [if_pos hne]
    unfold IndexByte
    rw [indexByteFrom_mem 47 s 0 h]
    simp only [Nat.zero_add, Int.toNat_ofNat]
    exact take_length_takeWhile _ s
  · rw [if_neg (not_not.mpr ((IndexByte_eq_neg_one_iff s 47).mpr h))]
    symm
    rw [List.takeWhile_eq_self_iff]
    intro b hb
    have : b ≠ 47 := fun e => h (e ▸ hb)
    simpa using this

theorem LocalPath_eq_localPathRef (s : List Nat) : LocalPath s = localPathRef s := by
  unfold LocalPath localPathRef
  cases s with
  | nil => rfl
  | cons s0 t =>
    simp only [List.head?_cons, Option.some.injEq, reduceCtorEq, if_false]
    by_cases h0 : s0 = 45 ∨ s0 = 126
    · rw [if_pos h0, if_pos h0]
    · rw [if_neg h0, if_neg h0, leading_eq_takeWhile (s0 :: t)]
      by_cases hc : 58 ∈ (s0 :: t).takeWhile (fun b => b != 47)
      · rw [if_pos hc, if_pos (fun e => (IndexByte_eq_neg_one_iff _ 58).mp e hc)]
      · rw [if_neg hc, if_neg (not_not.mpr ((IndexByte_eq_neg_one_iff _ 58).mpr hc))]

theorem localPathRef_cases (s : List Nat) :
    (s = [] ∧ localPathRef s = [46]) ∨
    (s ≠ [] ∧ localPathRef s = [46, 47] ++ s) ∨
    (s ≠ [] ∧ s.head? ≠ some 45 ∧ s.head? ≠ some 126 ∧
      58 ∉ s.takeWhile (fun b => b != 47) ∧ localPathRef s = s) := by
  unfold localPathRef
  by_cases h0 : s = []
  · left; exact ⟨h0, by rw [if_pos h0]⟩
  · right
    rw [if_neg h0]
    by_cases h1 : s.head? = some 45 ∨ s.head? = some 126
    · left; exact ⟨h0, by rw [if_pos h1]⟩
    · rw [if_neg h1]
      by_cases h2 : 58 ∈ s.takeWhile (fun b => b != 47)
      · left; exact ⟨h0, by rw [if_pos h2]⟩
      · right
        exact ⟨h0, fun e => h1 (Or.inl e), fun e => h1 (Or.inr e), h2, by rw [if_neg h2]⟩

/-- A path that needs no prefix is returned as it is. -/
theorem LocalPath_fixed (t : List Nat) (h0 : t ≠ []) (h1 : t.head? ≠ some 45)
    (h2 : t.head? ≠ some 126) (h3 : 58 ∉ t.takeWhile (fun b => b != 47)) :
    LocalPath t = t := by
  rw [LocalPath_eq_localPathRef]
  unfold localPathRef
  rw [if_neg h0, if_neg (by rintro (e | e); exact h1 e; exact h2 e), if_neg h3]

/-- What `LocalPath` returns needs no prefix. -/
theorem LocalPath_unambiguous (s : List Nat) :
    LocalPath s ≠ [] ∧ (LocalPath s).head? ≠ some 45 ∧ (LocalPath s).head? ≠ some 126 ∧
      58 ∉ (LocalPath s).takeWhile (fun b => b != 47) := by
  rw [LocalPath_eq_localPathRef]
  rcases localPathRef_cases s with ⟨-, e⟩ | ⟨-, e⟩ | ⟨h0, h1, h2, h3, e⟩
  · rw [e]; decide
  · rw [e]
    refine ⟨by simp, by simp, by simp, ?_⟩
    simp [List.takeWhile]
  · rw [e]; exact ⟨h0, h1, h2, h3⟩

/-- C14: `LocalPath` is the four-case reference definition: `.` for the empty
string, `./` before a string that begins with - or ~, `./` before a string with
a colon before its first slash (anywhere when it has no slash), and the string
itself otherwise; so local/file:with-colon is unchanged and remote:dir/file.txt
gets the prefix. -/
theorem LocalPath_four_cases (s : List Nat) :
    LocalPath s = localPathRef s ∧
    LocalPath [108, 111, 99, 97, 108, 47, 102, 105, 108, 101, 58, 119, 105, 116, 104, 45,
        99, 111, 108, 111, 110] =
      [108, 111, 99, 97, 108, 47, 102, 105, 108, 101, 58, 119, 105, 116, 104, 45,
        99, 111, 108, 111, 110] ∧
    LocalPath [114, 101, 109, 111, 116, 101, 58, 100, 105, 114, 47, 102, 105, 108, 101, 46,
        116, 120, 116] =
      [46, 47, 114, 101, 109, 111, 116, 101, 58, 100, 105, 114, 47, 102, 105, 108, 101, 46,
        116, 120, 116] :=
  ⟨LocalPath_eq_localPathRef s, by decide, by decide⟩

/-- C15: what `LocalPath` returns is never empty, does not begin with - or ~,
has no colon before its first slash (nor anywhere when it has no slash), and
ends with its argument: it is the argument, `./` and the argument, or `.` for
the empty argument. -/
theorem LocalPath_result (s : List Nat) :
    LocalPath s ≠ [] ∧ (LocalPath s).head? ≠ some 45 ∧ (LocalPath s).head? ≠ some 126 ∧
    58 ∉ (LocalPath s).takeWhile (fun b => b != 47) ∧
    s <:+ LocalPath s ∧
    (LocalPath s = s ∨ LocalPath s = [46, 47] ++ s ∨ (s = [] ∧ LocalPath s = [46])) := by
  obtain ⟨a1, a2, a3, a4⟩ := LocalPath_unambiguous s
  refine ⟨a1, a2, a3, a4, ?_⟩
  rw [LocalPath_eq_localPathRef]
  rcases localPathRef_cases s with ⟨h0, e⟩ | ⟨-, e⟩ | ⟨-, -, -, -, e⟩
  · rw [e, h0]
    exact ⟨List.nil_suffix, Or.inr (Or.inr ⟨rfl, rfl⟩)⟩
  · rw [e]
    exact ⟨List.suffix_append _ _, Or.inr (Or.inl rfl)⟩
  · rw [e]
    exact ⟨List.suffix_refl _, Or.inl rfl⟩

theorem escaped_of_plainSafe : ∀ s : List Nat, (∀ c ∈ s, isPlainSafe c = true) →
    escaped s = s := by
  intro s
  induction s with
  | nil => intro _; rfl
  | cons c s ih =>
    intro h
    have hc := h c (List.mem_cons_self _ _)
    have he : ¬ needsEscape c = true := by
      simp [isPlainSafe] at hc
      simp [needsEscape]
      omega
    unfold escaped
    rw [if_neg he, ih (fun d hd => h d (List.mem_cons_of_mem _ hd))]
    rfl

theorem BareQuotedString_eq_escaped {s : List Nat}
    (h : ∀ c ∈ runes s, isPrintable c = true) :
    BareQuotedString s = some (escaped s, none) := by
  rw [BareQuotedString_printable h]
  by_cases hp : s.all isPlainSafe = true
  · rw [if_pos hp, escaped_of_plainSafe s (by simpa using hp)]
  · rw [if_neg hp]

theorem String_of_quote {s : List Nat} (h : ∀ c ∈ runes s, isPrintable c = true)
    (hq : 39 ∈ runes s) : String s = some ([34] ++ escaped s ++ [34], none) := by
  rw [String_printable h]
  rw [runes_of_printable h] at hq
  have h0 : s ≠ [] := List.ne_nil_of_mem hq
  have h1 : ¬ s.all isPlainSafe = true := by
    intro hall
    exact absurd ((List.all_eq_true.mp hall) 39 hq) (by decide)
  have h2 : ¬ s.all (fun c => c != 39) = true := by
    intro hall
    exact absurd ((List.all_eq_true.mp hall) 39 hq) (by decide)
  rw [if_neg h0, if_neg h1, if_neg h2]

/-- C16: for every string whose characters all lie in 32..126,
`BareQuotedString` succeeds and returns the characters of the string, each
after one backslash exactly when it is one of $ " \ and backtick, with no quote
around them; a string of plain-safe characters, the empty one too, comes back
unchanged; and for a string with a single quote `String` returns that text
between double quotes. -/
theorem BareQuotedString_bare (s : List Nat) (h : ∀ c ∈ runes s, 32 ≤ c ∧ c ≤ 126) :
    ∃ bare, BareQuotedString s = some (bare, none) ∧ bare = escaped s ∧
      ((∀ c ∈ runes s, isPlainSafe c = true) → bare = s) ∧
      (39 ∈ runes s → String s = some ([34] ++ bare ++ [34], none)) := by
  have hp := printable_of_bounds h
  refine ⟨escaped s, BareQuotedString_eq_escaped hp, rfl, ?_, String_of_quote hp⟩
  intro hall
  rw [runes_of_printable hp] at hall
  exact escaped_of_plainSafe s hall

/-- The empty string gives the empty text, and the string a, single quote,
dollar sign gives a, single quote, backslash, dollar sign. -/
theorem BareQuotedString_bare_witness :
    (∃ bare, BareQuotedString [] = some (bare, none) ∧ bare = [] ∧
      ((∀ c ∈ runes [], isPlainSafe c = true) → bare = []) ∧
      (39 ∈ runes [] → String [] = some ([34] ++ bare ++ [34], none))) ∧
    (∃ bare, BareQuotedString [97, 39, 36] = some (bare, none) ∧ bare = [97, 39, 92, 36] ∧
      ((∀ c ∈ runes [97, 39, 36], isPlainSafe c = true) → bare = [97, 39, 36]) ∧
      (39 ∈ runes [97, 39, 36] →
        String [97, 39, 36] = some ([34] ++ bare ++ [34], none))) :=
  ⟨BareQuotedString_bare [] (by decide), BareQuotedString_bare [97, 39, 36] (by decide)⟩

set_option maxRecDepth 1000000 in
/-- C17: the table has 128 entries; the entry of an alphanumeric or of one of
% + , - . / : = @ _ is plain, single and double; that of $ " \ and backtick is
single, double and escape; that of the single quote is double alone; that of
every other character in 32..126 is single and double; that of 0..31 and of
127 is empty. Four entries have the escape flag and 72 the plain flag. -/
theorem charMask_classes :
    charMask.length = 128 ∧
    (∀ c, c < 128 →
      (isPlainSafe c = true → charMask[c]? = some (maskPlain ||| maskSingle ||| maskDouble)) ∧
      (needsEscape c = true →
        charMask[c]? = some (maskSingle ||| maskDouble ||| maskEscape)) ∧
      (c = 39 → charMask[c]? = some maskDouble) ∧
      (32 ≤ c ∧ c ≤ 126 ∧ isPlainSafe c = false ∧ needsEscape c = false ∧ c ≠ 39 →
        charMask[c]? = some (maskSingle ||| maskDouble)) ∧
      (c < 32 ∨ c = 127 → charMask[c]? = some 0)) ∧
    (charMask.filter (fun m => m &&& maskEscape != 0)).length = 4 ∧
    (charMask.filter (fun m => m &&& maskPlain != 0)).length = 72 := by
  rw [charMask_eq]
  decide

theorem styleMask_double (p q : Bool) :
    styleMask p q &&& maskDouble ≠ 0 ∧ styleMask p q &&& maskEscape = 0 := by
  cases p <;> cases q <;> decide

set_option maxRecDepth 1000000 in
theorem styleMask_land_classOf : ∀ c, c < 128 → ∀ p q : Bool,
    (styleMask p q &&& classOf c = 0 ↔ classOf c = 0) ∧
    (isPrintable c = true → classOf c &&& maskDouble ≠ 0) := by
  decide

theorem stringMask_unprintable {s pre post : List Nat} {c : Nat}
    (hs : runes s = pre ++ c :: post) (hpre : ∀ d ∈ pre, isPrintable d = true)
    (hc : ¬ isPrintable c = true) :
    stringMask s = some (0, some (errorFor c)) := by
  unfold stringMask
  rw [hs, stringMaskLoop_error c post hc pre _ hpre]

/-- A string on which `stringMask` succeeds has printable characters only. -/
theorem printable_of_stringMask {s : List Nat} {m : Nat}
    (h : stringMask s = some (m, none)) : ∀ c ∈ runes s, isPrintable c = true := by
  rcases printable_or_first (runes s) with hp | ⟨pre, c, post, e, hpre, hc⟩
  · exact hp
  · rw [stringMask_unprintable e hpre hc] at h
    simp at h

theorem errorFor_ne_control {d c : Nat} (hd : ¬ isPrintable d = true)
    (hc : isPrintable c = true) : errorFor d ≠ Error.control c := by
  unfold errorFor
  split
  · simp
  · intro e
    have : d = c := Error.control.inj e
    rw [this] at hd
    exact hd hc

/-- C18: the mask `stringMask` returns has the plain flag exactly when every
character is plain-safe, the single flag exactly when no character is the
single quote, the double flag always and the escape flag never, and every
character of the string has the double flag in the table; intersecting such a
mask with a table entry gives the empty mask exactly when the entry is empty;
and at a character below 128 that follows printable ones the control-character
error naming it is returned exactly when its entry is empty. -/
theorem stringMask_intersection :
    (∀ s m, stringMask s = some (m, none) →
      (m &&& maskPlain ≠ 0 ↔ ∀ c ∈ runes s, isPlainSafe c = true) ∧
      (m &&& maskSingle ≠ 0 ↔ 39 ∉ runes s) ∧
      m &&& maskDouble ≠ 0 ∧ m &&& maskEscape = 0 ∧
      (∀ c ∈ runes s, ∃ cm, charMask[c]? = some cm ∧ cm &&& maskDouble ≠ 0) ∧
      (∀ c cm, c < 128 → charMask[c]? = some cm → (m &&& cm = 0 ↔ cm = 0))) ∧
    (∀ s pre post c, runes s = pre ++ c :: post → (∀ d ∈ pre, 32 ≤ d ∧ d ≤ 126) →
      c < 128 →
      (stringMask s = some (0, some (Error.control c)) ↔ charMask[c]? = some 0)) := by
  constructor
  · intro s m h
    have hp := printable_of_stringMask h
    have hr := runes_of_printable hp
    rw [stringMask_printable hp] at h
    have hm := (Prod.mk.inj (Option.some.inj h)).1
    rw [← hm, styleMask_plain, styleMask_single, hr]
    have hsingle : (s.all (fun c => c != 39) = true) ↔ 39 ∉ s := by
      simp only [List.all_eq_true, bne_iff_ne, ne_eq]
      exact ⟨fun h hm => h 39 hm rfl, fun h x hx e => h (e ▸ hx)⟩
    refine ⟨by simp, hsingle, (styleMask_double _ _).1, (styleMask_double _ _).2, ?_, ?_⟩
    · intro c hc
      rw [← hr] at hc
      have hlt := isPrintable_lt (hp c hc)
      exact ⟨classOf c, charMask_get c hlt,
        (styleMask_land_classOf c hlt true true).2 (hp c hc)⟩
    · intro c cm hlt hcm
      rw [charMask_get c hlt] at hcm
      rw [← Option.some.inj hcm]
      exact (styleMask_land_classOf c hlt _ _).1
  · intro s pre post c hs hpre hlt
    have hpp := printable_of_bounds hpre
    obtain ⟨h0, -, -⟩ := classOf_facts c hlt
    rw [charMask_get c hlt]
    constructor
    · intro h
      by_cases hc : isPrintable c = true
      · exfalso
        rcases printable_or_first post with hq | ⟨p2, d, q2, e, hp2, hd⟩
        · have hall : ∀ x ∈ runes s, isPrintable x = true := by
            rw [hs]
            intro x hx
            rcases List.mem_append.mp hx with m1 | m2
            · exact hpp x m1
            · rcases List.mem_cons.mp m2 with e1 | m3
              · rw [e1]; exact hc
              · exact hq x m3
          rw [stringMask_printable hall] at h
          simp at h
        · have hs2 : runes s = (pre ++ c :: p2) ++ d :: q2 := by rw [hs, e]; simp
          have hall : ∀ x ∈ pre ++ c :: p2, isPrintable x = true := by
            intro x hx
            rcases List.mem_append.mp hx with m1 | m2
            · exact hpp x m1
            · rcases List.mem_cons.mp m2 with e1 | m3
              · rw [e1]; exact hc
              · exact hp2 x m3
          rw [stringMask_unprintable hs2 hall hd] at h
          exact errorFor_ne_control hd hc
            (Option.some.inj (Prod.mk.inj (Option.some.inj h)).2)
      · rw [h0.mpr hc]
    · intro h
      have hc : ¬ isPrintable c = true := h0.mp (Option.some.inj h)
      rw [stringMask_unprintable hs hpp hc]
      simp [errorFor]
      omega

/-- The mask of the string a, single quote is the double flag alone, and the
string a, byte 1 gets the control-character error for the empty entry of 1. -/
theorem stringMask_intersection_witness :
    stringMask [97, 39] = some (maskDouble, none) ∧
    (maskDouble &&& maskSingle ≠ 0 ↔ 39 ∉ runes [97, 39]) ∧
    stringMask [97, 1] = some (0, some (Error.control 1)) :=
  have h1 : stringMask [97, 39] = some (maskDouble, none) :=
    @stringMask_printable [97, 39] (by decide)
  ⟨h1, (stringMask_intersection.1 [97, 39] maskDouble h1).2.1,
   (stringMask_intersection.2 [97, 1] [97] [] 1 (by decide) (by decide) (by decide)).mpr
     (charMask_get 1 (by decide))⟩

/-- C19: for strings `s` and `t` whose characters all lie in 32..126, equal
results of `String` mean equal strings. -/
theorem String_injective (s t : List Nat) (hs : ∀ c ∈ runes s, 32 ≤ c ∧ c ≤ 126)
    (ht : ∀ c ∈ runes t, 32 ≤ c ∧ c ≤ 126) (h : String s = String t) : s = t := by
  obtain ⟨o1, e1, a1⟩ := String_shellArgs s hs
  obtain ⟨o2, e2, a2⟩ := String_shellArgs t ht
  rw [e1, e2] at h
  have ho : o1 = o2 := (Prod.mk.inj (Option.some.inj h)).1
  rw [ho, a2] at a1
  exact (List.cons.inj (Option.some.inj a1)).1.symm

/-- The empty string and the string of two single quotes have different
results. -/
theorem String_injective_witness :
    String [97, 32] = String [97, 32] ∧ String [] ≠ String [39, 39] :=
  ⟨rfl, fun h => absurd (String_injective [] [39, 39] (by decide) (by decide) h) (by decide)⟩

/-- C20: `LocalPath` of what `LocalPath` returns is that again. -/
theorem LocalPath_idempotent (s : List Nat) : LocalPath (LocalPath s) = LocalPath s := by
  obtain ⟨a1, a2, a3, a4⟩ := LocalPath_unambiguous s
  exact LocalPath_fixed _ a1 a2 a3 a4

end Shellquote
